import Mathlib

/-!
Verification development for the job-control core of the tiny shell `tsh`
(src/tsh.c).  The shallow embedding below translates the job table, the
SIGCHLD handler, the `bg`/`fg` builtin, `waitfg` and the parent path of
`eval` into executable Lean definitions, and proves / refutes the frozen
specification claims about them.

Modelling conventions:
- `pid_t` and `int` values are modelled as `Int` (the C code only compares
  and copies them; no overflow-sensitive arithmetic occurs).
- The global array `struct job_t jobs[MAXJOBS]` is a `List Job` of length
  `MAXJOBS`; the C `for (i = 0; i < MAXJOBS; i++)` scans become structural
  recursions in slot order.
- C functions that can dereference a failed lookup (`NULL` pointer) return
  `Option`: a `none` result marks the undefined access.
- The globals `nextjid` and `flag` are threaded explicitly (`Shell`,
  `Flag`).
-/

namespace Tsh

/-- MAXJOBS from tsh.c line 21: max jobs at any point in time. -/
def MAXJOBS : Nat := 16

/-- Job states, tsh.c lines 25-28: UNDEF, FG, BG, ST. -/
inductive JState
  | undef
  | fg
  | bg
  | st
deriving DecidableEq

/-- struct job_t, tsh.c lines 52-58. -/
structure Job where
  pid : Int
  jid : Int
  state : JState
  cmdline : String
deriving DecidableEq

/-- clearjob, tsh.c lines 629-636: the cleared slot contents. -/
def clearjob : Job := ⟨0, 0, JState.undef, ""⟩

/-- initjobs, tsh.c lines 639-646: all MAXJOBS slots cleared. -/
def initjobs : List Job := List.replicate MAXJOBS clearjob

/-- Accumulator loop of maxjid, tsh.c lines 649-658. -/
def maxjidGo (m : Int) : List Job → Int
  | [] => m
  | j :: rest => maxjidGo (if m < j.jid then j.jid else m) rest

/-- maxjid, tsh.c lines 649-658: largest allocated job ID, 0 if none. -/
def maxjid (l : List Job) : Int := maxjidGo 0 l

/-- Global state shared by the job-list helpers: the table plus the
allocation counter `nextjid` (tsh.c line 49). -/
structure Shell where
  jobs : List Job
  nextjid : Int
deriving DecidableEq

/-- Shell state right after initjobs in main (tsh.c line 164). -/
def initShell : Shell := ⟨initjobs, 1⟩

/-- Scan loop of addjob (tsh.c lines 669-683): find the first slot with
pid == 0 and overwrite it with the new job record; `none` if no slot is
empty (the table is full). -/
def addjobGo (pid nj : Int) (s : JState) (cl : String) : List Job → Option (List Job)
  | [] => none
  | j :: rest =>
    if j.pid = 0 then some (Job.mk pid nj s cl :: rest)
    else (addjobGo pid nj s cl rest).map (fun r => j :: r)

/-- Wrap rule of addjob (tsh.c lines 674-675): after nextjid++ the counter
is reset to 1 once it exceeds MAXJOBS. -/
def wrapNext (n : Int) : Int := if n > (MAXJOBS : Int) then 1 else n

/-- addjob, tsh.c lines 661-686.  Returns the updated shell state and the
C return value (`true` = 1, job added; `false` = 0, rejected).  A `false`
result on a full table corresponds to the printed report
"Tried to create too many jobs". -/
def addjob (sh : Shell) (pid : Int) (s : JState) (cl : String) : Shell × Bool :=
  if pid < 1 then (sh, false)
  else
    match addjobGo pid sh.nextjid s cl sh.jobs with
    | none => (sh, false)
    | some l => (⟨l, wrapNext (sh.nextjid + 1)⟩, true)

/-- Scan loop of deletejob (tsh.c lines 697-703): clear the first slot
whose pid matches; `none` if no slot matches. -/
def deletejobGo (pid : Int) : List Job → Option (List Job)
  | [] => none
  | j :: rest =>
    if j.pid = pid then some (clearjob :: rest)
    else (deletejobGo pid rest).map (fun r => j :: r)

/-- deletejob, tsh.c lines 689-705: clear the slot of `pid` and reset the
allocation counter to maxjid(jobs)+1 of the resulting table. -/
def deletejob (sh : Shell) (pid : Int) : Shell × Bool :=
  if pid < 1 then (sh, false)
  else
    match deletejobGo pid sh.jobs with
    | none => (sh, false)
    | some l => (⟨l, maxjid l + 1⟩, true)

/-- fgpid, tsh.c lines 708-717: pid of the first slot in FG state, 0 if
none. -/
def fgpid : List Job → Int
  | [] => 0
  | j :: rest => if j.state = JState.fg then j.pid else fgpid rest

/-- First slot satisfying a predicate: the pointer returned by the
getjobpid / getjobjid scans (tsh.c lines 720-745). -/
def findJob (p : Job → Bool) : List Job → Option Job
  | [] => none
  | j :: rest => if p j then some j else findJob p rest

/-- Write through the pointer returned by a getjob scan: update the first
slot satisfying the predicate, leave every other slot untouched. -/
def updateJob (p : Job → Bool) (f : Job → Job) : List Job → List Job
  | [] => []
  | j :: rest => if p j then f j :: rest else j :: updateJob p f rest

/-- Index of the first slot satisfying a predicate (loop counter `i` of
the table scans). -/
def findIdxGo (p : Job → Bool) : List Job → Option Nat
  | [] => none
  | j :: rest => if p j then some 0 else (findIdxGo p rest).map (fun i => i + 1)

/-- getjobpid, tsh.c lines 720-731. -/
def getjobpid (l : List Job) (pid : Int) : Option Job :=
  if pid < 1 then none else findJob (fun j => j.pid = pid) l

/-- getjobjid, tsh.c lines 734-745. -/
def getjobjid (l : List Job) (jid : Int) : Option Job :=
  if jid < 1 then none else findJob (fun j => j.jid = jid) l

/-- Number of live (pid != 0) slots of the table. -/
def liveCount : List Job → Nat
  | [] => 0
  | j :: rest => (if j.pid = 0 then 0 else 1) + liveCount rest

/-- Number of slots in FG state. -/
def fgCount : List Job → Nat
  | [] => 0
  | j :: rest => (if j.state = JState.fg then 1 else 0) + fgCount rest

/-! ## SIGCHLD handler (tsh.c lines 523-579)

A reaped status is one of the three outcomes distinguished by the handler:
`WTERMSIG(status) == SIGINT` (termination by the interrupt signal, checked
first), `WIFSTOPPED(status)` (the child stopped), or anything else (normal
or other-signal exit).  The kernel-side pending status changes are passed
as a queue; each `waitpid(-1, ..., WNOHANG | WUNTRACED)` call pops its
head, and an empty queue makes `waitpid` return a non-positive value. -/

/-- The three status-change outcomes distinguished at tsh.c lines 554-567. -/
inductive ChildStatus
  | termInt
  | stopped
  | exited
deriving DecidableEq

/-- Values of the global `flag` (tsh.c lines 31-33, 63): 0 initially, then
EXIT, INTR or TSTP. -/
inductive Flag
  | start
  | exited
  | intr
  | tstp
deriving DecidableEq

/-- What a single sigchld_handler invocation returns: the mutated shell
state, the flag, the status changes still pending in the kernel when the
handler returned, and whether the errno / signal-mask restore code at
tsh.c lines 572-576 was executed before returning. -/
structure HandlerResult where
  sh : Shell
  flag : Flag
  pending : List (Int × ChildStatus)
  restored : Bool
deriving DecidableEq

/-- sigchld_handler, tsh.c lines 523-579.  The body of the reap loop sets
the looked-up job's state to ST (line 551: `getjobpid(jobs, pid)->state =
ST`, a NULL dereference - modelled as `none` - when the pid is not in the
table), then returns from inside the loop in every branch (lines 554-569),
so at most one pending child is processed and the restore code at lines
572-576 runs only when no child was reapable at entry. -/
def sigchld_handler (sh : Shell) (flag : Flag) :
    List (Int × ChildStatus) → Option HandlerResult
  | [] => some ⟨sh, flag, [], true⟩
  | (pid, cs) :: rest =>
    match getjobpid sh.jobs pid with
    | none => none
    | some _ =>
      let jobs1 := updateJob (fun j => j.pid = pid)
        (fun j => { j with state := JState.st }) sh.jobs
      let sh1 : Shell := ⟨jobs1, sh.nextjid⟩
      match cs with
      | ChildStatus.termInt => some ⟨(deletejob sh1 pid).1, Flag.intr, rest, false⟩
      | ChildStatus.stopped => some ⟨sh1, Flag.tstp, rest, false⟩
      | ChildStatus.exited => some ⟨(deletejob sh1 pid).1, Flag.exited, rest, false⟩

/-! ## do_bgfg (tsh.c lines 375-470) -/

/-- Which builtin was dispatched (argv[0] is "fg" or "bg"). -/
inductive BF
  | fgc
  | bgc
deriving DecidableEq

/-- The job selector parsed from argv[1]: a %jid, a numeric pid, or a
non-number (the strtol failure detected at tsh.c line 414). -/
inductive Sel
  | byJid (n : Int)
  | byPid (n : Int)
  | notNum
deriving DecidableEq

/-- The single-line diagnostics printed by do_bgfg. -/
inductive Msg
  | requiresArg
  | noSuchJob (jid : Int)
  | mustBeNumber
  | noSuchProcess (pid : Int)
  | alreadyFg (pid : Int)
deriving DecidableEq

/-- Signals sent by kill(-pid, ...) in do_bgfg. -/
inductive Sig
  | tstpSig
  | contSig
deriving DecidableEq

/-- Observable outcome of a do_bgfg call: final shell state, error line
(if any), the `[jid] (pid) cmdline` report of the bg branch, the signals
sent (in order, each to the process group -pid), and the pid argument of
the waitfg call made by the fg branch. -/
structure BgfgOut where
  sh : Shell
  errMsg : Option Msg
  report : Option (Int × Int × String)
  sigs : List (Int × Sig)
  waitOn : Option Int
deriving DecidableEq

/-- Shared tail of do_bgfg once the target job is resolved (tsh.c lines
439-467): fg sends SIGTSTP, writes FG through the job pointer, sends
SIGCONT and calls waitfg(fgpid(jobs)); bg writes BG, prints the report and
sends SIGCONT. -/
def bgfgRun (sh : Shell) (cmd : BF) (myjid mypid : Int) (key : Job → Bool)
    (cl : String) : BgfgOut :=
  match cmd with
  | BF.fgc =>
    let jobs1 := updateJob key (fun j => { j with state := JState.fg }) sh.jobs
    ⟨⟨jobs1, sh.nextjid⟩, none, none,
      [(mypid, Sig.tstpSig), (mypid, Sig.contSig)], some (fgpid jobs1)⟩
  | BF.bgc =>
    let jobs1 := updateJob key (fun j => { j with state := JState.bg }) sh.jobs
    ⟨⟨jobs1, sh.nextjid⟩, none, some (myjid, mypid, cl),
      [(mypid, Sig.contSig)], none⟩

/-- do_bgfg, tsh.c lines 375-470.  `none` models the NULL dereference
`mypid = myjob->pid` (line 404) reached when the %jid does not exceed
maxjid but belongs to no live job.  Note that the jid branch has no
already-in-foreground check, while the pid branch (lines 432-436) does. -/
def do_bgfg (sh : Shell) (cmd : BF) (arg : Option Sel) : Option BgfgOut :=
  match arg with
  | none => some ⟨sh, some Msg.requiresArg, none, [], none⟩
  | some (Sel.byJid n) =>
    if maxjid sh.jobs < n then some ⟨sh, some (Msg.noSuchJob n), none, [], none⟩
    else
      match getjobjid sh.jobs n with
      | none => none
      | some j => some (bgfgRun sh cmd n j.pid (fun jb => jb.jid = n) j.cmdline)
  | some (Sel.byPid n) =>
    match getjobpid sh.jobs n with
    | none => some ⟨sh, some (Msg.noSuchProcess n), none, [], none⟩
    | some j =>
      if j.state = JState.fg then some ⟨sh, some (Msg.alreadyFg n), none, [], none⟩
      else some (bgfgRun sh cmd j.jid n (fun jb => jb.pid = n) j.cmdline)
  | some Sel.notNum => some ⟨sh, some Msg.mustBeNumber, none, [], none⟩

/-! ## waitfg (tsh.c lines 475-509) -/

/-- How a waitfg call starts: the entry code `job = getjobpid(jobs, pid);
jid = job->jid` (lines 480-481) runs before the `fgpid(jobs) == 0` early
return (lines 484-485), so a pid with no live job entry is an undefined
NULL-pointer access.  Otherwise the call returns immediately when pid is
not the foreground pid, or enters the busy loop (lines 488-489). -/
inductive WaitfgStart
  | undefAccess
  | immediateReturn (jid : Int)
  | blocked (jid : Int)
deriving DecidableEq

/-- waitfg entry behavior, tsh.c lines 475-489. -/
def waitfg (l : List Job) (pid : Int) : WaitfgStart :=
  match getjobpid l pid with
  | none => WaitfgStart.undefAccess
  | some j =>
    if fgpid l = 0 then WaitfgStart.immediateReturn j.jid
    else if pid = fgpid l then WaitfgStart.blocked j.jid
    else WaitfgStart.immediateReturn j.jid

/-! ## Parent path of eval (tsh.c lines 249-281) -/

/-- What the parent does after registering the job: wait on a foreground
job, or print the `[jid] (pid) cmdline` line for a background job. -/
inductive EvalOutcome
  | waitsFor (pid : Int)
  | reportsBg (jid pid : Int) (cl : String)
deriving DecidableEq

/-- Parent continuation of eval after fork (tsh.c lines 249-281): addjob
with FG or BG per the parsed background flag, restore the signal mask,
re-look the job up by pid (`job->jid` at line 265 is a NULL dereference -
`none` - when the lookup fails, e.g. after addjob was rejected), then
either waitfg on a foreground job or print the background report. -/
def evalParent (sh : Shell) (pid : Int) (fginit : Bool) (cl : String) :
    Option (Shell × EvalOutcome) :=
  let sh1 := (addjob sh pid (if fginit then JState.fg else JState.bg) cl).1
  match getjobpid sh1.jobs pid with
  | none => none
  | some job =>
    if job.state = JState.fg then some (sh1, EvalOutcome.waitsFor pid)
    else some (sh1, EvalOutcome.reportsBg job.jid pid job.cmdline)

/-! ## Signal-mask ordering of eval (tsh.c lines 230-277)

The non-builtin path of eval, as a sequence of primitive events in program
order.  `maskAfter` folds the mask effect of the two sigprocmask calls
(lines 232 and 261); SIGCHLD delivery - hence a sigchld_handler invocation
- is only possible at a point where the mask is not blocking it, and the
forked child only exists from the fork event on. -/

/-- Primitive events of the non-builtin eval path in program order:
sigprocmask(SIG_BLOCK) line 232, fork line 233, addjob lines 251-258,
sigprocmask(SIG_SETMASK, prev) line 261, waitfg / background report lines
268-277. -/
inductive EvalEv
  | blockSigchld
  | forkChild
  | registerJob
  | restoreMask
  | waitOrReport
deriving DecidableEq

/-- The eval parent path, tsh.c lines 230-277, in program order. -/
def evalParentEvents : List EvalEv :=
  [EvalEv.blockSigchld, EvalEv.forkChild, EvalEv.registerJob,
   EvalEv.restoreMask, EvalEv.waitOrReport]

/-- Whether SIGCHLD is blocked after a prefix of events has executed. -/
def maskAfter : List EvalEv → Bool → Bool
  | [], b => b
  | e :: rest, b =>
    maskAfter rest
      (match e with
       | EvalEv.blockSigchld => true
       | EvalEv.restoreMask => false
       | _ => b)

/-- SIGCHLD blocked after the first k events of the eval parent path. -/
def sigchldBlockedAt (k : Nat) : Bool := maskAfter (evalParentEvents.take k) false

/-- The forked child exists after the first k events. -/
def childExistsAt (k : Nat) : Bool :=
  decide (EvalEv.forkChild ∈ evalParentEvents.take k)

/-- The job-table entry has been registered after the first k events. -/
def jobRegisteredAt (k : Nat) : Bool :=
  decide (EvalEv.registerJob ∈ evalParentEvents.take k)

/-! ## Shell-level transition system

The command loop is a single thread: builtins and launches run only while
the loop is at the prompt, and the loop is at the prompt exactly when it
is not blocked inside waitfg (`Phase.busy pid` = blocked in waitfg until
`fgpid(jobs) != pid`, the loop condition at tsh.c line 488).  SIGCHLD
handler invocations are asynchronous and may occur in any phase; the
masked fork-to-register window of eval (claim about `evalParentEvents`
below) justifies treating each launch as one atomic step.  The kernel
only reports status changes for pids of previously launched - hence
registered - children, which is why the notify step requires the
sigchld_handler call to succeed (a failed lookup would be the NULL
dereference at tsh.c line 551). -/

/-- Control position of the command loop. -/
inductive Phase
  | prompt
  | busy (pid : Int)
deriving DecidableEq

/-- Whole-system state: job table and allocation counter, the `flag`
global, and the command-loop phase. -/
structure SState where
  sh : Shell
  flag : Flag
  phase : Phase
deriving DecidableEq

/-- State after main's initialization (tsh.c line 164). -/
def initSState : SState := ⟨initShell, Flag.start, Phase.prompt⟩

/-- Phase the command loop enters after the eval parent path: blocked in
waitfg for a foreground job, back at the prompt for a background one. -/
def phaseOfOutcome : EvalOutcome → Phase
  | EvalOutcome.waitsFor pid => Phase.busy pid
  | EvalOutcome.reportsBg _ _ _ => Phase.prompt

/-- Phase after a successful do_bgfg: fg blocks in waitfg(fgpid(jobs))
(tsh.c line 453), bg returns to the prompt. -/
def phaseAfterResume (cmd : BF) (out : BgfgOut) : Phase :=
  match cmd with
  | BF.fgc => Phase.busy (fgpid out.sh.jobs)
  | BF.bgc => Phase.prompt

/-- One observable step of the shell.  `launch` requires a fresh kernel
pid (the kernel never reuses the pid of a live child); `notify` delivers
one pending child-status change to sigchld_handler; `finishWait` is the
exit of waitfg's busy loop (tsh.c line 488). -/
inductive Step : SState → SState → Prop
  | launch (s : SState) (pid : Int) (fginit : Bool) (cl : String)
      (res : Shell × EvalOutcome) :
      s.phase = Phase.prompt →
      getjobpid s.sh.jobs pid = none →
      evalParent s.sh pid fginit cl = some res →
      Step s ⟨res.1, s.flag, phaseOfOutcome res.2⟩
  | resume (s : SState) (cmd : BF) (arg : Option Sel) (out : BgfgOut) :
      s.phase = Phase.prompt →
      do_bgfg s.sh cmd arg = some out →
      out.errMsg = none →
      Step s ⟨out.sh, s.flag, phaseAfterResume cmd out⟩
  | notify (s : SState) (pid : Int) (cs : ChildStatus) (res : HandlerResult) :
      sigchld_handler s.sh s.flag [(pid, cs)] = some res →
      Step s ⟨res.sh, res.flag, s.phase⟩
  | finishWait (s : SState) (pid : Int) :
      s.phase = Phase.busy pid →
      fgpid s.sh.jobs ≠ pid →
      Step s ⟨s.sh, s.flag, Phase.prompt⟩

/-- States reachable from the initial state under any interleaving of
launches, bg/fg resumes, handler invocations and waitfg exits. -/
inductive Reachable : SState → Prop
  | init : Reachable initSState
  | next (s s' : SState) : Reachable s → Step s s' → Reachable s'

/-- Inductive invariant: at most one foreground job; none while the loop
is at the prompt; while the loop waits on pid, every foreground job has
that pid. -/
def InvP (s : SState) : Prop :=
  fgCount s.sh.jobs ≤ 1 ∧
  (s.phase = Phase.prompt → fgCount s.sh.jobs = 0) ∧
  (∀ pid, s.phase = Phase.busy pid →
    ∀ j ∈ s.sh.jobs, j.state = JState.fg → j.pid = pid)

/-! ## Concrete tables used by the counterexamples and failing-input
theorems -/

/-- Table with one background job, jid 1, pid 11. -/
def shA : Shell := (addjob initShell 11 JState.bg "a").1

/-- Table with background jobs jid 1 and 2 (pids 11, 12). -/
def shAB : Shell := (addjob shA 12 JState.bg "b").1

/-- Table with background jobs jid 1, 2, 3 (pids 11, 12, 13). -/
def shABC : Shell := (addjob shAB 13 JState.bg "c").1

/-- shABC after deletejob of jid 2's pid: live jids 1 and 3, counter 4. -/
def shDel2 : Shell := (deletejob shABC 12).1

/-- shDel2 after deletejob of jid 3's pid: live jid 1, counter reset to
maxjid+1 = 2. -/
def shDel23 : Shell := (deletejob shDel2 13).1

/-- Sixteen distinct pids 101..116. -/
def pidList : List Int := (List.range 16).map (fun k => (101 : Int) + k)

/-- Fold addjob over a pid list (all as background jobs). -/
def addMany (sh : Shell) (ps : List Int) : Shell :=
  ps.foldl (fun s p => (addjob s p JState.bg "w").1) sh

/-- Full table: 16 live jobs, jids 1..16; the counter has wrapped to 1. -/
def shFull : Shell := addMany initShell pidList

/-- shFull after deleting pids 101 and 102: 14 live jobs, jids 3..16,
counter 17. -/
def shWrapA : Shell := (deletejob (deletejob shFull 101).1 102).1

/-- shWrapA after adding pid 117: it gets jid 17 and the counter wraps to
1 although the table still holds 15 live jobs. -/
def shWrapB : Shell := (addjob shWrapA 117 JState.bg "w").1

/-- shWrapB after adding pid 118: it gets jid 1 while jid 17 is live. -/
def shWrapC : Shell := (addjob shWrapB 118 JState.bg "w").1

/-- Table whose only job, jid 1 / pid 11, is in the foreground state. -/
def shFgA : Shell := ⟨Job.mk 11 1 JState.fg "a" :: List.replicate 15 clearjob, 2⟩

/-! ## Theorems -/

/-- C3: the SIGCHLD handler is claimed to harvest every reapable child in
a single invocation, but every branch of its reap loop returns from inside
the loop (tsh.c lines 554-569).  Evaluated at the failing input - two
simultaneously reapable exited children, pids 11 and 12 - the handler
returns while child 12 is still pending and its job, jid 2, is still in
the table. -/
theorem sigchld_returns_with_pending_child :
    (sigchld_handler shABC Flag.start
        [(11, ChildStatus.exited), (12, ChildStatus.exited)]).map
        (fun r => (r.pending, (getjobpid r.sh.jobs 12).isSome)) =
      some ([(12, ChildStatus.exited)], true) := by decide

/-- C4: the saved errno and signal mask are claimed to be restored on
every return path of the SIGCHLD handler, but the restore code (tsh.c
lines 572-576) sits after the reap loop while every reaping branch returns
from inside the loop.  Evaluated at the failing input - one reapable
exited child, pid 13 - the handler returns without restoring; only the
no-reapable-child path restores. -/
theorem sigchld_skips_restore_on_reap :
    ((sigchld_handler shABC Flag.start [(13, ChildStatus.exited)]).map
        (fun r => r.restored) = some false) ∧
    ((sigchld_handler shABC Flag.start []).map
        (fun r => r.restored) = some true) := by decide

/-- C6: waitfg is claimed to return immediately, with no undefined access,
when the target job's slot was already cleared.  The code dereferences the
getjobpid result (`job->jid`, tsh.c line 481) before the no-foreground
check at line 484, so a pid with no table entry - pid 5 on an empty table,
or the pid 0 that do_bgfg's fg branch passes when no foreground job
exists - is a NULL dereference, not an immediate return. -/
theorem waitfg_null_deref :
    waitfg initjobs 5 = WaitfgStart.undefAccess ∧
    fgpid initjobs = 0 ∧
    waitfg shA.jobs 0 = WaitfgStart.undefAccess := by decide

/-- C8: a launch on a full table is claimed to report, drop the request
and return normally.  addjob (tsh.c lines 669-685) does report and leave
the 16-entry table unchanged, but eval ignores addjob's return value and
dereferences the failed lookup (`job->jid`, tsh.c lines 264-265), so the
launch does not return normally: evaluated at the failing input - a full
table of 16 live jobs and a 17th launch, pid 200 - the parent path hits
the NULL dereference (`none`). -/
theorem launch_full_table :
    addjob shFull 200 JState.fg "x" = (shFull, false) ∧
    evalParent shFull 200 true "x" = none ∧
    liveCount shFull.jobs = MAXJOBS := by decide

/-- C9: fg or bg with no argument at all reports the single-line
"requires PID or %jobid argument" diagnostic (tsh.c lines 380-383) and is
a no-op: the table is unchanged and no signal is sent. -/
theorem bgfg_missing_argument (sh : Shell) (cmd : BF) :
    do_bgfg sh cmd none = some ⟨sh, some Msg.requiresArg, none, [], none⟩ := rfl

/-- C9 witness: the missing-argument theorem evaluated on a concrete
table. -/
theorem bgfg_missing_argument_witness :
    do_bgfg shABC BF.fgc none =
      some ⟨shABC, some Msg.requiresArg, none, [], none⟩ :=
  bgfg_missing_argument shABC BF.fgc

/-- C5 counterexample: the claim, as stated, fails on the code in two
places.  (1) On a table with live jids 1 and 3 only, `fg %2` has a jid
that does not exceed the current maximum but belongs to no live job: the
code dereferences the failed getjobjid lookup (`myjob->pid`, tsh.c line
404) instead of reporting an error - the result is `none`, not an error
no-op.  (2) On a table whose job jid 1 / pid 11 is already in the
foreground state, `fg %1` is not treated as an error: the
already-in-foreground check (tsh.c lines 432-436) exists only in the pid
branch, so the code sends SIGTSTP and SIGCONT to the process group and
rewrites the state. -/
theorem bgfg_claim_counterexample :
    do_bgfg shDel2 BF.fgc (some (Sel.byJid 2)) = none ∧
    do_bgfg shFgA BF.fgc (some (Sel.byJid 1)) =
      some ⟨shFgA, none, none, [(11, Sig.tstpSig), (11, Sig.contSig)], some 11⟩ := by
  decide

/-- C7 counterexample: the claim, as stated, fails on the code in two
places.  (1) With live jobs jid 1, 2, 3, removing jid 2's pid and then jid
3's pid makes the next add assign jid 2, not the claimed jid 3: deletejob
recomputes nextjid as maxjid of the remaining table plus one (tsh.c line
700), and after both removals maxjid is 1.  (2) A newly assigned jid is
not always strictly greater than every live jid even though the table
never became empty: after 16 adds, two deletes and one add, the counter
has wrapped past MAXJOBS (tsh.c lines 674-675) to 1 while jid 17 is live,
so the next add assigns jid 1; the intermediate tables hold 14 and 15 live
jobs, so no reset after an empty table occurred. -/
theorem jid_claim_counterexample :
    ((getjobpid (addjob shDel23 14 JState.bg "d").1.jobs 14).map
        (fun j => j.jid) = some 2 ∧ (2 : Int) ≠ 3) ∧
    ((getjobpid shWrapC.jobs 118).map (fun j => j.jid) = some 1 ∧
      (getjobjid shWrapC.jobs 17).isSome = true ∧
      liveCount shWrapA.jobs = 14 ∧ liveCount shWrapB.jobs = 15) := by decide

/-- C2: on the non-builtin eval path, SIGCHLD is blocked before the fork
and unblocked only after addjob, so at every point of the parent path at
which the forked child already exists and SIGCHLD delivery is possible,
the job-table entry is already registered: no handler invocation
concerning the child can observe the table before the entry exists. -/
theorem eval_blocks_until_registered (k : Nat)
    (hchild : childExistsAt k = true) (hmask : sigchldBlockedAt k = false) :
    jobRegisteredAt k = true := by
  match k with
  | 0 => exact absurd hchild (by decide)
  | 1 => exact absurd hchild (by decide)
  | 2 => exact absurd hmask (by decide)
  | 3 => exact absurd hmask (by decide)
  | 4 => decide
  | (n + 5) =>
    have h5 : evalParentEvents.take (n + 5) = evalParentEvents := by
      apply List.take_of_length_le
      simp [evalParentEvents]
    unfold jobRegisteredAt
    rw [h5]
    decide

/-- C2 witness: at the point right after the mask restore (k = 4) the
child exists, SIGCHLD is deliverable, and the job is registered. -/
theorem eval_blocks_until_registered_witness :
    childExistsAt 4 = true ∧ sigchldBlockedAt 4 = false ∧
      jobRegisteredAt 4 = true :=
  ⟨by decide, by decide, eval_blocks_until_registered 4 (by decide) (by decide)⟩

/-! ## List-level helper lemmas about the table scans -/

theorem fgCount_cons (j : Job) (t : List Job) :
    fgCount (j :: t) = (if j.state = JState.fg then 1 else 0) + fgCount t := rfl

theorem fgCount_eq_zero (l : List Job) :
    fgCount l = 0 ↔ ∀ j ∈ l, j.state ≠ JState.fg := by
  induction l with
  | nil => simp [fgCount]
  | cons h t ih =>
    rw [fgCount_cons]
    constructor
    · intro hz j hj
      have h1 : (if h.state = JState.fg then 1 else 0) = 0 ∧ fgCount t = 0 := by
        omega
      rcases List.mem_cons.mp hj with rfl | hjt
      · intro hfg
        simp [hfg] at h1
      · exact (ih.mp h1.2) j hjt
    · intro hall
      have hh : h.state ≠ JState.fg := hall h (List.mem_cons_self h t)
      have ht : fgCount t = 0 := ih.mpr (fun j hj => hall j (List.mem_cons_of_mem h hj))
      simp [hh, ht]

theorem mem_updateJob {p : Job → Bool} {f : Job → Job} {l : List Job} {j' : Job}
    (h : j' ∈ updateJob p f l) :
    j' ∈ l ∨ ∃ j, j ∈ l ∧ p j = true ∧ j' = f j := by
  induction l with
  | nil => simp [updateJob] at h
  | cons a t ih =>
    by_cases hp : p a = true
    · simp only [updateJob, if_pos hp] at h
      rcases List.mem_cons.mp h with rfl | ht
      · exact Or.inr ⟨a, List.mem_cons_self a t, hp, rfl⟩
      · exact Or.inl (List.mem_cons_of_mem a ht)
    · simp only [updateJob, if_neg hp] at h
      rcases List.mem_cons.mp h with rfl | ht
      · exact Or.inl (List.mem_cons_self _ _)
      · rcases ih ht with h1 | ⟨j, hj, hpj, hfj⟩
        · exact Or.inl (List.mem_cons_of_mem a h1)
        · exact Or.inr ⟨j, List.mem_cons_of_mem a hj, hpj, hfj⟩

theorem fgCount_updateJob_notfg {p : Job → Bool} {f : Job → Job} (l : List Job)
    (hf : ∀ j, (f j).state ≠ JState.fg) :
    fgCount (updateJob p f l) ≤ fgCount l := by
  induction l with
  | nil => simp [updateJob]
  | cons a t ih =>
    by_cases hp : p a = true
    · simp only [updateJob, if_pos hp]
      rw [fgCount_cons, fgCount_cons]
      have h0 : (if (f a).state = JState.fg then 1 else 0) = 0 := by simp [hf a]
      rw [h0]
      have h1 : (if a.state = JState.fg then 1 else 0) + fgCount t ≥ fgCount t := by
        omega
      omega
    · simp only [updateJob, if_neg hp]
      rw [fgCount_cons, fgCount_cons]
      omega

theorem fgCount_updateJob_le_one {p : Job → Bool} {f : Job → Job} (l : List Job)
    (h0 : fgCount l = 0) : fgCount (updateJob p f l) ≤ 1 := by
  induction l with
  | nil => simp [updateJob, fgCount]
  | cons a t ih =>
    rw [fgCount_cons] at h0
    have ht : fgCount t = 0 := by omega
    by_cases hp : p a = true
    · simp only [updateJob, if_pos hp]
      rw [fgCount_cons, ht]
      have : (if (f a).state = JState.fg then 1 else 0) ≤ 1 := by split <;> simp
      omega
    · simp only [updateJob, if_neg hp]
      rw [fgCount_cons]
      have hi := ih ht
      omega

theorem findJob_some {p : Job → Bool} {l : List Job} {j : Job}
    (h : findJob p l = some j) : j ∈ l ∧ p j = true := by
  induction l with
  | nil => simp [findJob] at h
  | cons a t ih =>
    by_cases hp : p a = true
    · simp only [findJob, if_pos hp] at h
      cases h
      exact ⟨List.mem_cons_self _ _, hp⟩
    · simp only [findJob, if_neg hp] at h
      obtain ⟨hm, hj⟩ := ih h
      exact ⟨List.mem_cons_of_mem a hm, hj⟩

theorem findJob_none {p : Job → Bool} {l : List Job} (h : findJob p l = none) :
    ∀ j ∈ l, ¬ p j = true := by
  induction l with
  | nil => simp
  | cons a t ih =>
    by_cases hp : p a = true
    · simp only [findJob, if_pos hp] at h
      exact absurd h (by simp)
    · simp only [findJob, if_neg hp] at h
      intro j hj
      rcases List.mem_cons.mp hj with rfl | ht
      · exact hp
      · exact ih h j ht

theorem deletejobGo_mem {pid : Int} {l l' : List Job}
    (h : deletejobGo pid l = some l') : ∀ j ∈ l', j = clearjob ∨ j ∈ l := by
  induction l generalizing l' with
  | nil => simp [deletejobGo] at h
  | cons a t ih =>
    by_cases hp : a.pid = pid
    · simp only [deletejobGo, if_pos hp] at h
      cases h
      intro j hj
      rcases List.mem_cons.mp hj with rfl | ht
      · exact Or.inl rfl
      · exact Or.inr (List.mem_cons_of_mem a ht)
    · simp only [deletejobGo, if_neg hp] at h
      cases hm : deletejobGo pid t with
      | none => rw [hm] at h; simp at h
      | some t' =>
        rw [hm] at h
        simp only [Option.map_some'] at h
        cases h
        intro j hj
        rcases List.mem_cons.mp hj with rfl | ht
        · exact Or.inr (List.mem_cons_self _ _)
        · rcases ih hm j ht with h1 | h2
          · exact Or.inl h1
          · exact Or.inr (List.mem_cons_of_mem a h2)

theorem deletejobGo_fgCount {pid : Int} {l l' : List Job}
    (h : deletejobGo pid l = some l') : fgCount l' ≤ fgCount l := by
  induction l generalizing l' with
  | nil => simp [deletejobGo] at h
  | cons a t ih =>
    by_cases hp : a.pid = pid
    · simp only [deletejobGo, if_pos hp] at h
      cases h
      rw [fgCount_cons, fgCount_cons]
      have h0 : (if clearjob.state = JState.fg then 1 else 0) = 0 := by decide
      rw [h0]
      omega
    · simp only [deletejobGo, if_neg hp] at h
      cases hm : deletejobGo pid t with
      | none => rw [hm] at h; simp at h
      | some t' =>
        rw [hm] at h
        simp only [Option.map_some'] at h
        cases h
        rw [fgCount_cons, fgCount_cons]
        have := ih hm
        omega

theorem addjobGo_mem {pid nj : Int} {s : JState} {cl : String} {l l' : List Job}
    (h : addjobGo pid nj s cl l = some l') :
    ∀ j ∈ l', j = Job.mk pid nj s cl ∨ j ∈ l := by
  induction l generalizing l' with
  | nil => simp [addjobGo] at h
  | cons a t ih =>
    by_cases hp : a.pid = 0
    · simp only [addjobGo, if_pos hp] at h
      cases h
      intro j hj
      rcases List.mem_cons.mp hj with rfl | ht
      · exact Or.inl rfl
      · exact Or.inr (List.mem_cons_of_mem a ht)
    · simp only [addjobGo, if_neg hp] at h
      cases hm : addjobGo pid nj s cl t with
      | none => rw [hm] at h; simp at h
      | some t' =>
        rw [hm] at h
        simp only [Option.map_some'] at h
        cases h
        intro j hj
        rcases List.mem_cons.mp hj with rfl | ht
        · exact Or.inr (List.mem_cons_self _ _)
        · rcases ih hm j ht with h1 | h2
          · exact Or.inl h1
          · exact Or.inr (List.mem_cons_of_mem a h2)

theorem addjobGo_fgCount {pid nj : Int} {s : JState} {cl : String} {l l' : List Job}
    (h0 : fgCount l = 0) (h : addjobGo pid nj s cl l = some l') :
    fgCount l' = (if s = JState.fg then 1 else 0) := by
  induction l generalizing l' with
  | nil => simp [addjobGo] at h
  | cons a t ih =>
    rw [fgCount_cons] at h0
    have ht : fgCount t = 0 := by omega
    have ha : (if a.state = JState.fg then 1 else 0) = 0 := by omega
    by_cases hp : a.pid = 0
    · simp only [addjobGo, if_pos hp] at h
      cases h
      rw [fgCount_cons, ht]
      simp
    · simp only [addjobGo, if_neg hp] at h
      cases hm : addjobGo pid nj s cl t with
      | none => rw [hm] at h; simp at h
      | some t' =>
        rw [hm] at h
        simp only [Option.map_some'] at h
        cases h
        rw [fgCount_cons, ha, ih ht hm]
        omega

theorem le_maxjidGo (m : Int) (l : List Job) : m ≤ maxjidGo m l := by
  induction l generalizing m with
  | nil => simp [maxjidGo]
  | cons a t ih =>
    simp only [maxjidGo]
    calc m ≤ (if m < a.jid then a.jid else m) := by split <;> omega
      _ ≤ maxjidGo (if m < a.jid then a.jid else m) t := ih _

theorem mem_le_maxjidGo {j : Job} {l : List Job} (hj : j ∈ l) (m : Int) :
    j.jid ≤ maxjidGo m l := by
  induction l generalizing m with
  | nil => simp at hj
  | cons a t ih =>
    simp only [maxjidGo]
    rcases List.mem_cons.mp hj with rfl | ht
    · calc j.jid ≤ (if m < j.jid then j.jid else m) := by split <;> omega
        _ ≤ maxjidGo (if m < j.jid then j.jid else m) t := le_maxjidGo _ t
    · exact ih ht _

theorem fgCount_zero_of_fgpid_ne {l : List Job} {pid : Int}
    (hall : ∀ j ∈ l, j.state = JState.fg → j.pid = pid)
    (hne : fgpid l ≠ pid) : fgCount l = 0 := by
  induction l with
  | nil => rfl
  | cons a t ih =>
    by_cases ha : a.state = JState.fg
    · exfalso
      have hf : fgpid (a :: t) = a.pid := by simp [fgpid, ha]
      exact hne (by rw [hf, hall a (List.mem_cons_self _ _) ha])
    · have hf : fgpid (a :: t) = fgpid t := by simp [fgpid, ha]
      rw [fgCount_cons]
      have h0 : (if a.state = JState.fg then 1 else 0) = 0 := by simp [ha]
      rw [h0]
      have := ih (fun j hj => hall j (List.mem_cons_of_mem a hj)) (hf ▸ hne)
      omega

theorem fg_pid_eq_fgpid {l : List Job} (h : fgCount l ≤ 1) :
    ∀ j ∈ l, j.state = JState.fg → j.pid = fgpid l := by
  induction l with
  | nil => simp
  | cons a t ih =>
    intro j hj hfg
    by_cases ha : a.state = JState.fg
    · have hfp : fgpid (a :: t) = a.pid := by simp [fgpid, ha]
      rcases List.mem_cons.mp hj with rfl | hjt
      · rw [hfp]
      · exfalso
        rw [fgCount_cons] at h
        have h1 : (if a.state = JState.fg then 1 else 0) = 1 := by simp [ha]
        have ht0 : fgCount t = 0 := by omega
        exact ((fgCount_eq_zero t).mp ht0 j hjt) hfg
    · have hfp : fgpid (a :: t) = fgpid t := by simp [fgpid, ha]
      rcases List.mem_cons.mp hj with rfl | hjt
      · exact absurd hfg ha
      · rw [fgCount_cons] at h
        have h1 : (if a.state = JState.fg then 1 else 0) = 0 := by simp [ha]
        have ht : fgCount t ≤ 1 := by omega
        rw [hfp]
        exact ih ht j hjt hfg

/-! ## Operation-level lemmas -/

theorem deletejob_spec (sh : Shell) (pid : Int) :
    fgCount (deletejob sh pid).1.jobs ≤ fgCount sh.jobs ∧
    ∀ j ∈ (deletejob sh pid).1.jobs, j.state = JState.fg → j ∈ sh.jobs := by
  unfold deletejob
  by_cases hp : pid < 1
  · rw [if_pos hp]
    exact ⟨le_refl _, fun j hj _ => hj⟩
  · rw [if_neg hp]
    cases hm : deletejobGo pid sh.jobs with
    | none => exact ⟨le_refl _, fun j hj _ => hj⟩
    | some l2 =>
      refine ⟨deletejobGo_fgCount hm, ?_⟩
      intro j hj hfg
      rcases deletejobGo_mem hm j hj with rfl | h
      · exact absurd hfg (by decide)
      · exact h

theorem sigchld_spec {sh : Shell} {f : Flag} {pid : Int} {cs : ChildStatus}
    {res : HandlerResult}
    (h : sigchld_handler sh f [(pid, cs)] = some res) :
    fgCount res.sh.jobs ≤ fgCount sh.jobs ∧
    ∀ j ∈ res.sh.jobs, j.state = JState.fg → j ∈ sh.jobs := by
  simp only [sigchld_handler] at h
  cases hg : getjobpid sh.jobs pid with
  | none => rw [hg] at h; simp at h
  | some j0 =>
    rw [hg] at h
    simp only at h
    have hc1 : fgCount (updateJob (fun j => j.pid = pid)
        (fun j => { j with state := JState.st }) sh.jobs) ≤ fgCount sh.jobs :=
      fgCount_updateJob_notfg _ (fun j => by simp)
    have hm1 : ∀ j ∈ updateJob (fun j => j.pid = pid)
        (fun j => { j with state := JState.st }) sh.jobs,
        j.state = JState.fg → j ∈ sh.jobs := by
      intro j hj hfg
      rcases mem_updateJob hj with hin | ⟨j2, hj2, hpj, rfl⟩
      · exact hin
      · simp at hfg
    cases cs with
    | termInt =>
      cases h
      have hd := deletejob_spec ⟨updateJob (fun j => j.pid = pid)
        (fun j => { j with state := JState.st }) sh.jobs, sh.nextjid⟩ pid
      exact ⟨le_trans hd.1 hc1, fun j hj hfg => hm1 j (hd.2 j hj hfg) hfg⟩
    | stopped =>
      cases h
      exact ⟨hc1, hm1⟩
    | exited =>
      cases h
      have hd := deletejob_spec ⟨updateJob (fun j => j.pid = pid)
        (fun j => { j with state := JState.st }) sh.jobs, sh.nextjid⟩ pid
      exact ⟨le_trans hd.1 hc1, fun j hj hfg => hm1 j (hd.2 j hj hfg) hfg⟩

theorem evalParent_spec {sh : Shell} {pid : Int} {b : Bool} {cl : String}
    {res : Shell × EvalOutcome}
    (h0 : fgCount sh.jobs = 0) (hfresh : getjobpid sh.jobs pid = none)
    (h : evalParent sh pid b cl = some res) :
    (∀ q, res.2 = EvalOutcome.waitsFor q →
        fgCount res.1.jobs ≤ 1 ∧
        ∀ j ∈ res.1.jobs, j.state = JState.fg → j.pid = q) ∧
    (∀ jd q c, res.2 = EvalOutcome.reportsBg jd q c → fgCount res.1.jobs = 0) := by
  unfold evalParent addjob at h
  by_cases hp : pid < 1
  · rw [if_pos hp] at h
    simp only [getjobpid, if_pos hp] at h
    exact absurd h (by simp)
  · rw [if_neg hp] at h
    cases hadd : addjobGo pid sh.nextjid (if b then JState.fg else JState.bg) cl
        sh.jobs with
    | none =>
      rw [hadd] at h
      simp only at h
      rw [hfresh] at h
      exact absurd h (by simp)
    | some l2 =>
      rw [hadd] at h
      simp only at h
      cases hf : getjobpid l2 pid with
      | none => rw [hf] at h; exact absurd h (by simp)
      | some j0 =>
        rw [hf] at h
        have hj0 : j0 ∈ l2 ∧ j0.pid = pid := by
          unfold getjobpid at hf
          rw [if_neg hp] at hf
          have := findJob_some hf
          exact ⟨this.1, by simpa using this.2⟩
        have hj0new : j0 = Job.mk pid sh.nextjid (if b then JState.fg else JState.bg) cl := by
          rcases addjobGo_mem hadd j0 hj0.1 with hnew | hold
          · exact hnew
          · exfalso
            unfold getjobpid at hfresh
            rw [if_neg hp] at hfresh
            exact (findJob_none hfresh j0 hold) (by simpa using hj0.2)
        have hcnt := addjobGo_fgCount h0 hadd
        dsimp only at h
        cases b with
        | true =>
          have hst : j0.state = JState.fg := by rw [hj0new]; simp
          rw [if_pos hst] at h
          cases h
          constructor
          · intro q hq
            cases hq
            refine ⟨by rw [hcnt]; simp, ?_⟩
            intro j hj hfg
            rcases addjobGo_mem hadd j hj with rfl | hold
            · rfl
            · exact absurd hfg ((fgCount_eq_zero sh.jobs).mp h0 j hold)
          · intro jd q c hq
            cases hq
        | false =>
          have hst : ¬ j0.state = JState.fg := by rw [hj0new]; simp
          rw [if_neg hst] at h
          cases h
          constructor
          · intro q hq
            cases hq
          · intro jd q c hq
            rw [hcnt]
            simp

theorem do_bgfg_spec {sh : Shell} {cmd : BF} {arg : Option Sel} {out : BgfgOut}
    (h0 : fgCount sh.jobs = 0) (h : do_bgfg sh cmd arg = some out)
    (herr : out.errMsg = none) :
    fgCount out.sh.jobs ≤ 1 ∧ (cmd = BF.bgc → fgCount out.sh.jobs = 0) := by
  have hrun : ∀ (myjid mypid : Int) (key : Job → Bool) (cl : String),
      out = bgfgRun sh cmd myjid mypid key cl →
      fgCount out.sh.jobs ≤ 1 ∧ (cmd = BF.bgc → fgCount out.sh.jobs = 0) := by
    intro myjid mypid key cl hout
    cases cmd with
    | fgc =>
      subst hout
      unfold bgfgRun
      refine ⟨fgCount_updateJob_le_one sh.jobs h0, ?_⟩
      intro hc
      cases hc
    | bgc =>
      subst hout
      dsimp only [bgfgRun]
      have hle := fgCount_updateJob_notfg (p := key)
        (f := fun j => { j with state := JState.bg }) sh.jobs (fun j => by simp)
      exact ⟨by omega, fun _ => by omega⟩
  unfold do_bgfg at h
  cases arg with
  | none =>
    cases h
    simp at herr
  | some sel =>
    cases sel with
    | byJid n =>
      dsimp only at h
      by_cases hmx : maxjid sh.jobs < n
      · rw [if_pos hmx] at h
        cases h
        simp at herr
      · rw [if_neg hmx] at h
        cases hg : getjobjid sh.jobs n with
        | none => rw [hg] at h; exact absurd h (by simp)
        | some j =>
          rw [hg] at h
          dsimp only at h
          cases h
          exact hrun n j.pid (fun jb => jb.jid = n) j.cmdline rfl
    | byPid n =>
      dsimp only at h
      cases hg : getjobpid sh.jobs n with
      | none =>
        rw [hg] at h
        cases h
        simp at herr
      | some j =>
        rw [hg] at h
        dsimp only at h
        by_cases hfg : j.state = JState.fg
        · rw [if_pos hfg] at h
          cases h
          simp at herr
        · rw [if_neg hfg] at h
          cases h
          exact hrun j.jid n (fun jb => jb.pid = n) j.cmdline rfl
    | notNum =>
      cases h
      simp at herr

/-! ## The inductive invariant -/

theorem step_preserves_inv {s s' : SState} (hs : InvP s) (hstep : Step s s') :
    InvP s' := by
  obtain ⟨hs1, hs2, hs3⟩ := hs
  cases hstep with
  | launch pid fginit cl res hph hfresh he =>
    have h0 : fgCount s.sh.jobs = 0 := hs2 hph
    have hspec := evalParent_spec h0 hfresh he
    unfold InvP
    cases hout : res.2 with
    | waitsFor q =>
      have hw := hspec.1 q hout
      refine ⟨hw.1, ?_, ?_⟩
      · intro hpr
        simp [phaseOfOutcome] at hpr
      · intro pid' hb j hj hfg
        simp only [phaseOfOutcome, Phase.busy.injEq] at hb
        rw [← hb]
        exact hw.2 j hj hfg
    | reportsBg jd q c =>
      have hr := hspec.2 jd q c hout
      refine ⟨?_, fun _ => hr, ?_⟩
      · show fgCount res.1.jobs ≤ 1
        omega
      · intro pid' hb
        simp [phaseOfOutcome] at hb
  | resume cmd arg out hph hdo herr =>
    have h0 : fgCount s.sh.jobs = 0 := hs2 hph
    have hspec := do_bgfg_spec h0 hdo herr
    unfold InvP
    cases cmd with
    | fgc =>
      refine ⟨hspec.1, ?_, ?_⟩
      · intro hpr
        simp [phaseAfterResume] at hpr
      · intro pid' hb j hj hfg
        simp only [phaseAfterResume, Phase.busy.injEq] at hb
        rw [← hb]
        exact fg_pid_eq_fgpid hspec.1 j hj hfg
    | bgc =>
      have hz := hspec.2 rfl
      refine ⟨?_, fun _ => hz, ?_⟩
      · show fgCount out.sh.jobs ≤ 1
        omega
      · intro pid' hb
        simp [phaseAfterResume] at hb
  | notify pid cs res hh =>
    have hspec := sigchld_spec hh
    refine ⟨le_trans hspec.1 hs1, ?_, ?_⟩
    · intro hpr
      have h2 := hs2 hpr
      have h3 := hspec.1
      show fgCount res.sh.jobs = 0
      omega
    · intro pid' hb j hj hfg
      exact hs3 pid' hb j (hspec.2 j hj hfg) hfg
  | finishWait pid hph hne =>
    have hz := fgCount_zero_of_fgpid_ne (hs3 pid hph) hne
    refine ⟨?_, fun _ => hz, ?_⟩
    · show fgCount s.sh.jobs ≤ 1
      omega
    · intro pid' hb
      simp at hb

theorem inv_of_reachable {s : SState} (h : Reachable s) : InvP s := by
  induction h with
  | init =>
    refine ⟨by decide, fun _ => by decide, ?_⟩
    intro pid hb
    simp [initSState] at hb
  | next s s' hr hstep ih => exact step_preserves_inv ih hstep

/-- C1: in every state reachable under any interleaving of launches,
SIGCHLD-handler invocations, bg/fg resumes and waitfg exits, at most one
job of the table is in the foreground state.  The launches set FG only
from a prompt state (where no foreground job exists, because waitfg only
returns once its job left the FG state), the handler only demotes (ST) or
removes jobs, and do_bgfg's fg branch promotes a single slot. -/
theorem fg_at_most_one (s : SState) (h : Reachable s) : fgCount s.sh.jobs ≤ 1 :=
  (inv_of_reachable h).1

/-- C1 witness: the invariant evaluated at the initial state. -/
theorem fg_at_most_one_witness : fgCount initSState.sh.jobs ≤ 1 :=
  fg_at_most_one initSState Reachable.init

/-! ## addjob frame property (C10) -/

theorem findIdxGo_cons (p : Job → Bool) (a : Job) (t : List Job) :
    findIdxGo p (a :: t) =
      if p a then some 0 else (findIdxGo p t).map (fun i => i + 1) := rfl

theorem addjobGo_frame {pid nj : Int} {s : JState} {cl : String} :
    ∀ (l : List Job) (i : Nat), findIdxGo (fun j => j.pid = 0) l = some i →
      ∃ l', addjobGo pid nj s cl l = some l' ∧
        ∀ k : Nat, l'[k]? = if k = i then some (Job.mk pid nj s cl) else l[k]? := by
  intro l
  induction l with
  | nil => intro i hi; simp [findIdxGo] at hi
  | cons a t ih =>
    intro i hi
    rw [findIdxGo_cons] at hi
    by_cases hp : a.pid = 0
    · simp only [hp, decide_True, if_true, Option.some.injEq] at hi
      subst hi
      refine ⟨Job.mk pid nj s cl :: t, by simp [addjobGo, hp], ?_⟩
      intro k
      cases k with
      | zero => simp
      | succ m => simp
    · simp only [hp, decide_False, if_false] at hi
      cases hm : findIdxGo (fun j => decide (j.pid = 0)) t with
      | none => rw [hm] at hi; simp at hi
      | some i' =>
        rw [hm] at hi
        simp at hi
        subst hi
        obtain ⟨l'', hl'', hframe⟩ := ih i' hm
        refine ⟨a :: l'', by simp [addjobGo, hp, hl''], ?_⟩
        intro k
        cases k with
        | zero => simp
        | succ m =>
          by_cases hk : m = i'
          · subst hk
            simp [hframe m]
          · have hk1 : ¬ (m + 1 = i' + 1) := by omega
            simp only [List.getElem?_cons_succ, if_neg hk1]
            rw [hframe m, if_neg hk]

/-- C10: a successful add on a table with an empty slot modifies exactly
the first empty slot in index order - it receives the given pid, the
current allocation counter as jid, the given state and a copy of the
command line - and every other slot of the table is unchanged (tsh.c lines
669-683). -/
theorem addjob_first_empty_frame (sh : Shell) (pid : Int) (s : JState)
    (cl : String) (i : Nat) (hpid : 1 ≤ pid)
    (hidx : findIdxGo (fun j => j.pid = 0) sh.jobs = some i) :
    (addjob sh pid s cl).2 = true ∧
    ∀ k : Nat, ((addjob sh pid s cl).1.jobs)[k]? =
      if k = i then some (Job.mk pid sh.nextjid s cl) else (sh.jobs)[k]? := by
  obtain ⟨l', hl', hframe⟩ := addjobGo_frame sh.jobs i hidx
  unfold addjob
  rw [if_neg (by omega), hl']
  exact ⟨rfl, hframe⟩

/-- C10 witness: adding pid 5 to the empty initial table fills slot 0 with
the new record and reports success. -/
theorem addjob_first_empty_frame_witness :
    (addjob initShell 5 JState.fg "x").2 = true ∧
    ((addjob initShell 5 JState.fg "x").1.jobs)[0]? =
      some (Job.mk 5 1 JState.fg "x") := by
  have h := addjob_first_empty_frame initShell 5 JState.fg "x" 0
    (by decide) (by decide)
  exact ⟨h.1, by simpa using h.2 0⟩

/-! ## jid allocation (C7, amended) -/

/-- C7 amended: remove(pid) resets the allocation counter to maxjid()+1
computed on the remaining table, so every live jid is strictly below the
counter right after a removal; with live jobs jid 1,2,3, removing jid 2's
pid makes the next add assign jid 4 when jid 3 is still live, and jid 2 -
not 3 - when jid 3 was also removed (the counter is recomputed from the
remaining live jobs, whose maximum is then 1); a newly assigned jid is in
general not strictly greater than every live jid, because the counter
wraps to 1 whenever an assignment pushes it past MAXJOBS, which can happen
while the table still holds live jobs. -/
theorem jid_alloc_amended :
    (∀ (sh : Shell) (pid : Int) (sh2 : Shell),
        deletejob sh pid = (sh2, true) →
        sh2.nextjid = maxjid sh2.jobs + 1 ∧
        ∀ j ∈ sh2.jobs, j.jid < sh2.nextjid) ∧
    ((getjobpid (addjob shDel2 14 JState.bg "d").1.jobs 14).map
        (fun j => j.jid) = some 4) ∧
    ((getjobpid (addjob shDel23 14 JState.bg "d").1.jobs 14).map
        (fun j => j.jid) = some 2) := by
  refine ⟨?_, by decide, by decide⟩
  intro sh pid sh2 h
  unfold deletejob at h
  by_cases hp : pid < 1
  · rw [if_pos hp] at h
    simp at h
  · rw [if_neg hp] at h
    cases hm : deletejobGo pid sh.jobs with
    | none =>
      rw [hm] at h
      simp at h
    | some l =>
      rw [hm] at h
      injection h with h1 h2
      subst h1
      refine ⟨rfl, ?_⟩
      intro j hj
      have hle : j.jid ≤ maxjid l := mem_le_maxjidGo hj 0
      show j.jid < maxjid l + 1
      omega

/-- C7 witness: the counter-reset property evaluated on the concrete
removal of jid 2's pid from the three-job table. -/
theorem jid_alloc_amended_witness :
    shDel2.nextjid = maxjid shDel2.jobs + 1 :=
  (jid_alloc_amended.1 shABC 12 shDel2 (by decide)).1

/-! ## do_bgfg error handling (C5, amended) -/

/-- C5 amended: do_bgfg reports a single-line error and is a no-op - table
unchanged, no signal sent, normal return - for an unresolvable selector in
these cases: a %jid strictly greater than the table's current maximum
(tsh.c lines 399-402), a pid with no live job (lines 423-426), a
non-numeric argument (lines 414-418), and an fg or bg request selecting an
already-foreground job by pid (lines 432-436).  A %jid that does not
exceed the maximum but belongs to no live job is NOT handled this way (the
code dereferences the failed lookup, see the counterexample), and an fg
request selecting an already-foreground job by %jid is not detected as an
error. -/
theorem bgfg_error_noop (sh : Shell) (cmd : BF) :
    (∀ n, maxjid sh.jobs < n →
        do_bgfg sh cmd (some (Sel.byJid n)) =
          some ⟨sh, some (Msg.noSuchJob n), none, [], none⟩) ∧
    (∀ n, getjobpid sh.jobs n = none →
        do_bgfg sh cmd (some (Sel.byPid n)) =
          some ⟨sh, some (Msg.noSuchProcess n), none, [], none⟩) ∧
    (∀ n j, getjobpid sh.jobs n = some j → j.state = JState.fg →
        do_bgfg sh cmd (some (Sel.byPid n)) =
          some ⟨sh, some (Msg.alreadyFg n), none, [], none⟩) ∧
    do_bgfg sh cmd (some Sel.notNum) =
      some ⟨sh, some Msg.mustBeNumber, none, [], none⟩ := by
  refine ⟨?_, ?_, ?_, rfl⟩
  · intro n hn
    unfold do_bgfg
    dsimp only
    rw [if_pos hn]
  · intro n hn
    unfold do_bgfg
    dsimp only
    rw [hn]
  · intro n j hn hfg
    unfold do_bgfg
    dsimp only
    rw [hn]
    dsimp only
    rw [if_pos hfg]

/-- C5 witness: `fg %9` on the three-job table (maxjid 3) reports the
no-such-job error and leaves everything unchanged. -/
theorem bgfg_error_noop_witness :
    do_bgfg shABC BF.fgc (some (Sel.byJid 9)) =
      some ⟨shABC, some (Msg.noSuchJob 9), none, [], none⟩ :=
  (bgfg_error_noop shABC BF.fgc).1 9 (by decide)

end Tsh
